import Mathlib

/-!
Shallow embedding of the bytecode virtual machine (compute stack, heap,
interpreter arms) used to settle the specification claims.  Machine bytes
are modelled as `Nat` values (< 256 where produced by the code), machine
integers as `Nat`/`Int` with explicit reduction modulo `2 ^ w` wherever the
Rust code relies on two's-complement wrap-around (release-mode semantics,
which is also what the specification mandates).  Fallible Rust code is
modelled with `Except`/`Option`; a Rust panic is modelled as `none`.
-/

set_option maxRecDepth 4000

namespace BytecodeVM

/-! ## Little-endian byte encoding

`from_le_bytes` / `to_le_bytes` as used by the stack's width-typed
push/pop operations (`compute_stack.rs`).  Index 0 is the least
significant byte. -/

/-- Decode a little-endian byte list to a natural number
(`<T>::from_le_bytes`). -/
def fromLE : List Nat → Nat
  | [] => 0
  | b :: rest => b + 256 * fromLE rest

/-- Encode the low `w` bytes of a natural number, little-endian
(`value.to_le_bytes()` for a `w`-byte integer type). -/
def toLE : Nat → Nat → List Nat
  | 0, _ => []
  | w + 1, v => v % 256 :: toLE w (v / 256)

theorem toLE_length (w v : Nat) : (toLE w v).length = w := by
  induction w generalizing v with
  | zero => rfl
  | succ w ih => simp [toLE, ih]

theorem fromLE_toLE (w v : Nat) (h : v < 2 ^ (8 * w)) : fromLE (toLE w v) = v := by
  induction w generalizing v with
  | zero =>
    simp only [Nat.mul_zero, pow_zero] at h
    simp only [toLE, fromLE]
    omega
  | succ w ih =>
    have h2 : v / 256 < 2 ^ (8 * w) := by
      rw [Nat.div_lt_iff_lt_mul (by norm_num)]
      calc v < 2 ^ (8 * (w + 1)) := h
        _ = 2 ^ (8 * w) * 256 := by ring
    simp only [toLE, fromLE, ih _ h2]
    omega

/-! ## Compute stack (`impl ComputeStack for Vec<u8>`, compute_stack.rs)

The stack is a `Vec<u8>`: modelled as a `List Nat` whose last element is
the top of the stack.  Each mutating operation returns the result paired
with the stack as it is left after the call (on failure the Rust methods
return before mutating, so the stack is returned unchanged). -/

inductive StackError where
  | Underflow
  | Overflow
deriving DecidableEq

instance {ε α : Type} [DecidableEq ε] [DecidableEq α] : DecidableEq (Except ε α) := fun x y =>
  match x, y with
  | .ok a, .ok b =>
    if h : a = b then isTrue (congrArg Except.ok h)
    else isFalse (fun hc => h (Except.ok.inj hc))
  | .ok _, .error _ => isFalse (fun hc => Except.noConfusion hc)
  | .error _, .ok _ => isFalse (fun hc => Except.noConfusion hc)
  | .error e, .error f =>
    if h : e = f then isTrue (congrArg Except.error h)
    else isFalse (fun hc => h (Except.error.inj hc))

/-- `Vec::extend_from_slice`: `push_slice` appends bytes at the top. -/
def push_slice (s : List Nat) (slice : List Nat) : List Nat := s ++ slice

/-- `pop_slice` (Vec impl): if at least `length` bytes are held, split off
the last `length` bytes and return them in original order; otherwise fail
with `Underflow`, leaving the stack untouched. -/
def pop_slice (s : List Nat) (length : Nat) : Except StackError (List Nat) × List Nat :=
  if length ≤ s.length then
    (.ok (s.drop (s.length - length)), s.take (s.length - length))
  else
    (.error .Underflow, s)

/-- `pop_u8` (Vec impl override): `self.pop().ok_or(StackError::Underflow)`. -/
def pop_u8 (s : List Nat) : Except StackError Nat × List Nat :=
  match s.getLast? with
  | some b => (.ok b, s.dropLast)
  | none => (.error .Underflow, s)

/-- `remove_top` (Vec impl): drain the last `length` bytes, or fail with
`Underflow` leaving the stack untouched. -/
def remove_top (s : List Nat) (length : Nat) : Except StackError Unit × List Nat :=
  if length ≤ s.length then
    (.ok (), s.take (s.length - length))
  else
    (.error .Underflow, s)

/-- The default trait implementation of every width-typed pop
(`pop_u16` … `pop_f64`, macro `pop_impl`): `pop_slice` of the type's byte
width followed by a little-endian decode.  The slice-to-array
`try_into().unwrap()` cannot fail because `pop_slice` returns exactly the
requested number of bytes (`pop_slice_ok_length` below). -/
def popLE (w : Nat) (s : List Nat) : Except StackError (Nat × List Nat) :=
  match pop_slice s w with
  | (.ok bytes, s') => .ok (fromLE bytes, s')
  | (.error e, _) => .error e

/-- The default trait implementation of `pop_u16` … `pop_f64` in the
mutable-state shape of the source (result paired with the stack as left
by the call): `pop_slice` of the width, then decode; an underflow
propagates before any mutation. -/
def pop_typed (w : Nat) (s : List Nat) : Except StackError Nat × List Nat :=
  match pop_slice s w with
  | (.ok bytes, s') => (.ok (fromLE bytes), s')
  | (.error e, s') => (.error e, s')

theorem pop_slice_ok_length (s : List Nat) (length : Nat) (bytes : List Nat) (s' : List Nat)
    (h : pop_slice s length = (.ok bytes, s')) : bytes.length = length := by
  unfold pop_slice at h
  split at h
  · next hle =>
    have := h
    simp only [Prod.mk.injEq, Except.ok.injEq] at this
    rw [← this.1]
    simp [List.length_drop]
    omega
  · simp at h

theorem pop_slice_append (s t : List Nat) :
    pop_slice (s ++ t) t.length = (.ok t, s) := by
  unfold pop_slice
  have h1 : t.length ≤ (s ++ t).length := by simp
  rw [if_pos h1]
  have h2 : (s ++ t).length - t.length = s.length := by simp
  rw [h2]
  simp

theorem popLE_append (w : Nat) (s : List Nat) (v : Nat) (h : v < 2 ^ (8 * w)) :
    popLE w (s ++ toLE w v) = .ok (v, s) := by
  unfold popLE
  have := pop_slice_append s (toLE w v)
  rw [toLE_length] at this
  rw [this]
  simp only [fromLE_toLE w v h]

theorem popLE_ok (w : Nat) (s : List Nat) (h : w ≤ s.length) :
    popLE w s = .ok (fromLE (s.drop (s.length - w)), s.take (s.length - w)) := by
  unfold popLE pop_slice
  rw [if_pos h]

/-! ## Ordering primitive (possibly_ordering.rs) -/

inductive PossiblyOrdering where
  | Unordered
  | Less
  | Equal
  | Greater
deriving DecidableEq

/-- The `#[repr(u8)]` discriminants: Unordered = 0, Less = 1, Equal = 2,
Greater = 3 (`cmp as u8`). -/
def PossiblyOrdering.toByte : PossiblyOrdering → Nat
  | .Unordered => 0
  | .Less => 1
  | .Equal => 2
  | .Greater => 3

/-- `impl From<Option<Ordering>> for PossiblyOrdering`. -/
def PossiblyOrdering.ofOption : Option Ordering → PossiblyOrdering
  | none => .Unordered
  | some .lt => .Less
  | some .eq => .Equal
  | some .gt => .Greater

/-! ## IEEE-754 bit-pattern semantics for the float opcodes

The machine transports floats as little-endian bit patterns on the byte
stack.  A bit pattern decodes to an exact value: NaN, a signed infinity,
or a finite rational (signed zeros both decode to the rational 0, which
matches Rust's `PartialOrd` where `-0.0 == 0.0`; no modelled operation
needs to distinguish the zero signs). -/

inductive FVal where
  | nan
  | inf (neg : Bool)
  | fin (q : ℚ)
deriving DecidableEq

/-- Decode an IEEE-754 binary interchange bit pattern with `eb` exponent
bits and `mb` mantissa bits (f32: eb = 8, mb = 23; f64: eb = 11, mb = 52)
into its exact value. -/
def decodeFloat (eb mb bits : Nat) : FVal :=
  let s := bits / 2 ^ (eb + mb) % 2
  let e := bits / 2 ^ mb % 2 ^ eb
  let m := bits % 2 ^ mb
  let sign : ℚ := if s = 1 then -1 else 1
  let bias := 2 ^ (eb - 1) - 1
  if e = 2 ^ eb - 1 then
    if m = 0 then .inf (s = 1) else .nan
  else if e = 0 then
    .fin (sign * m / 2 ^ (mb + bias - 1))
  else
    .fin (sign * (2 ^ mb + m) * 2 ^ e / 2 ^ (mb + bias))

/-- `decodeFloat` at the binary32 parameters (`f32::from_le_bytes`). -/
def decodeF32 (bits : Nat) : FVal := decodeFloat 8 23 bits

/-- `decodeFloat` at the binary64 parameters (`f64::from_le_bytes`). -/
def decodeF64 (bits : Nat) : FVal := decodeFloat 11 52 bits

/-- A bit pattern is NaN when it decodes to NaN (exponent all ones and a
non-zero mantissa). -/
def isNaNBits (eb mb bits : Nat) : Prop := decodeFloat eb mb bits = .nan

instance (eb mb bits : Nat) : Decidable (isNaNBits eb mb bits) := by
  unfold isNaNBits; infer_instance

/-- Rust `PartialOrd::partial_cmp` on `f32`/`f64`: `None` when either
operand is NaN, otherwise the numeric order (with `-0.0 == 0.0` and the
infinities at the ends). -/
def fcmp : FVal → FVal → Option Ordering
  | .nan, _ => none
  | _, .nan => none
  | .inf a, .inf b => some (if a = b then .eq else if a then .lt else .gt)
  | .inf a, .fin _ => some (if a then .lt else .gt)
  | .fin _, .inf b => some (if b then .gt else .lt)
  | .fin p, .fin q => some (if p < q then .lt else if p = q then .eq else .gt)

/-- Truncation toward zero of a rational, as used by C `fmod` (and hence
Rust's `%` on floats). -/
def ratTrunc (q : ℚ) : Int := if 0 ≤ q then ⌊q⌋ else -⌊-q⌋

/-- Exact value of the C `fmod` of two finite rationals with non-zero
divisor: `a - b * trunc(a / b)`.  `fmod` never rounds: the mathematical
result is always exactly representable in the operand format. -/
def fmodQ (a b : ℚ) : ℚ := a - b * ratTrunc (a / b)

/-- Rust's `%` on floats (`fmod`) at the exact-value level: NaN when
either operand is NaN, the dividend is infinite, or the divisor is zero;
the dividend unchanged when the divisor is infinite; otherwise the exact
`fmod`. -/
def frem : FVal → FVal → FVal
  | .nan, _ => .nan
  | _, .nan => .nan
  | .inf _, _ => .nan
  | .fin a, .inf _ => .fin a
  | .fin a, .fin b => if b = 0 then .nan else .fin (fmodQ a b)

/-- 2 ^ e as a rational, for an integer exponent. -/
def qpow2 (e : Int) : ℚ := if 0 ≤ e then ((2 : ℚ) ^ e.toNat) else 1 / 2 ^ (-e).toNat

/-- Floor of the base-2 logarithm of a positive rational.  The candidate
from the numerator/denominator bit lengths is off by at most one and is
corrected by direct comparison. -/
def ratLog2 (a : ℚ) : Int :=
  let e0 : Int := (Nat.log2 a.num.toNat : Int) - (Nat.log2 a.den : Int)
  if qpow2 e0 ≤ a then (if qpow2 (e0 + 1) ≤ a then e0 + 1 else e0) else e0 - 1

/-- Encode an exact value back into a binary64 bit pattern
(`f64::to_le_bytes` after a float computation).  NaN encodes as the
canonical quiet NaN.  For finite values that are exactly representable —
the only case arising from `fmod` of valid operands — the encoding is
exact; the mantissa of a non-representable value is truncated. -/
def encodeF64 : FVal → Nat
  | .nan => 0x7FF8000000000000
  | .inf b => (if b then 0xFFF else 0x7FF) * 2 ^ 52
  | .fin q =>
    if q = 0 then 0
    else
      let s : Nat := if q < 0 then 2 ^ 63 else 0
      let a : ℚ := |q|
      let E : Int := ratLog2 a
      if 1024 ≤ E then s + 0x7FF * 2 ^ 52
      else if -1022 ≤ E then
        let mfull : Nat := (⌊a * qpow2 (52 - E)⌋).toNat
        s + (E + 1023).toNat * 2 ^ 52 + (mfull - 2 ^ 52)
      else
        s + (⌊a * qpow2 1074⌋).toNat

/-- Rust's `%` on `f64` at the bit-pattern level (`a % b` then
`to_le_bytes`).  A zero result carries the dividend's sign bit, as C
`fmod` requires (`-2.0 % 2.0 = -0.0`); a non-zero finite result is signed
through its rational value; a NaN result's payload is not determined by
the program (it is libm-dependent), so the model picks the canonical
quiet NaN and theorems assert only NaN-ness in that case. -/
def f64RemBits (a b : Nat) : Nat :=
  match frem (decodeF64 a) (decodeF64 b) with
  | .fin q => if q = 0 then a / 2 ^ 63 % 2 * 2 ^ 63 else encodeF64 (.fin q)
  | v => encodeF64 v

/-! ## Infallible division (infallible_division.rs)

`impl_unchecked_division!` instantiates the same two bodies at each of
u8/u16/u32/u64 and i8/i16/i32/i64; they are modelled generically in the
byte width `w`.  Unsigned values are naturals below `2 ^ (8 * w)`; signed
values are integers in `[-2 ^ (8 * w - 1), 2 ^ (8 * w - 1))`.  Rust's `/`
and `%` on signed integers truncate toward zero and panic on division
overflow (`MIN / -1`, `MIN % -1`); the panic is modelled as `none`. -/

/-- `infallible_div` for the unsigned type of byte width `w`:
`if b != 0 { a / b } else { MAX }`. -/
def infallible_div_u (w a b : Nat) : Nat :=
  if b ≠ 0 then a / b else 2 ^ (8 * w) - 1

/-- `infallible_rem` for the unsigned type of byte width `w`:
`if b != 0 { a % b } else { a }`. -/
def infallible_rem_u (w a b : Nat) : Nat :=
  if b ≠ 0 then a % b else a

/-- Rust `a / b` on the signed type of byte width `w`: truncating
division; panics (`none`) on `b = 0` and on the overflowing `MIN / -1`. -/
def rust_sdiv (w : Nat) (a b : Int) : Option Int :=
  if b = 0 then none
  else if a = -(2 ^ (8 * w - 1)) ∧ b = -1 then none
  else some (Int.tdiv a b)

/-- Rust `a % b` on the signed type of byte width `w`: remainder with the
sign of the dividend; panics (`none`) on `b = 0` and on `MIN % -1`. -/
def rust_srem (w : Nat) (a b : Int) : Option Int :=
  if b = 0 then none
  else if a = -(2 ^ (8 * w - 1)) ∧ b = -1 then none
  else some (Int.tmod a b)

/-- `infallible_div` for the signed type of byte width `w`:
`if b != 0 { a / b } else { MAX }` where MAX = 2 ^ (8w - 1) - 1. -/
def infallible_div_s (w : Nat) (a b : Int) : Option Int :=
  if b ≠ 0 then rust_sdiv w a b else some (2 ^ (8 * w - 1) - 1)

/-- `infallible_rem` for the signed type of byte width `w`:
`if b != 0 { a % b } else { a }`. -/
def infallible_rem_s (w : Nat) (a b : Int) : Option Int :=
  if b ≠ 0 then rust_srem w a b else some a

/-! ## Managed heap (compute_heap.rs)

Object references (`NonZeroU64`) are modelled as `Nat`; the null/zero
distinction is kept by the machine layer.  The `HashMap` reference map is
modelled as an association list with (invariantly) distinct keys; map
iteration order never affects any modelled result. -/

inductive HeapError where
  | Allocation
  | ObjectNotFound
  | StackReferenceError
  | ChildIndexOutOfBounds
  | IllegalNullObjectReferenceUsage
  | OutOfBoundsObjectDataAccess
deriving DecidableEq

structure Object where
  stack_references : Nat
  children : List (Option Nat)
  data : List Nat
deriving DecidableEq

/-- `Object::new`: `stack_refs = 1`, `children_length` empty child slots,
`data_length` zero bytes. -/
def Object.new (children_length data_length : Nat) : Object :=
  { stack_references := 1
    children := List.replicate children_length none
    data := List.replicate data_length 0 }

/-- `Object::get_data_slice`: `self.data.get(start..start+length)`.  The
index addition is a `usize` addition and wraps modulo `2 ^ 64` in release
mode; `slice.get` on a range returns `None` (hence the error) whenever
the range is inverted or reaches past the end. -/
def Object.get_data_slice (o : Object) (start length : Nat) :
    Except HeapError (List Nat) :=
  let e := (start + length) % 2 ^ 64
  if start ≤ e ∧ e ≤ o.data.length then
    .ok ((o.data.drop start).take (e - start))
  else
    .error .OutOfBoundsObjectDataAccess

/-- `Object::get_mut_data_slice`: `self.data.get_mut(start..start+length)`
— the same range check as `get_data_slice`. -/
def Object.get_mut_data_slice (o : Object) (start length : Nat) :
    Except HeapError (List Nat) :=
  Object.get_data_slice o start length

/-- `Object::set_child`: `self.children.get_mut(index)` assignment. -/
def Object.set_child (o : Object) (index : Nat) (child : Option Nat) :
    Except HeapError Object :=
  if index < o.children.length then
    .ok { o with children := o.children.set index child }
  else
    .error .ChildIndexOutOfBounds

/-- `Object::get_child`: `self.children.get(index)`. -/
def Object.get_child (o : Object) (index : Nat) : Except HeapError (Option Nat) :=
  match o.children.get? index with
  | some c => .ok c
  | none => .error .ChildIndexOutOfBounds

structure Heap where
  counter : Nat
  reference_map : List (Nat × Object)
deriving DecidableEq

/-- `Heap::new`: counter 1, empty map. -/
def Heap.new : Heap := { counter := 1, reference_map := [] }

/-- `HashMap::get` on the reference map. -/
def hfind (m : List (Nat × Object)) (r : Nat) : Option Object :=
  (m.find? (fun p => p.1 = r)).map Prod.snd

/-- `HashMap::get_mut` followed by writing the updated object back. -/
def hupdate (m : List (Nat × Object)) (r : Nat) (o : Object) : List (Nat × Object) :=
  m.map (fun p => if p.1 = r then (p.1, o) else p)

/-- `HashMap::insert` (fresh keys append; an existing key is replaced). -/
def hinsert (m : List (Nat × Object)) (r : Nat) (o : Object) : List (Nat × Object) :=
  if (m.find? (fun p => p.1 = r)).isSome then hupdate m r o else m ++ [(r, o)]

/-- `Heap::get_and_increment_counter`: returns the current counter and
advances it; `counter.get() + 1` wraps modulo `2 ^ 64` (release mode) and
a wrap to zero fails with `Allocation` before the counter is assigned. -/
def Heap.get_and_increment_counter (h : Heap) : Except HeapError (Nat × Heap) :=
  let n := h.counter
  if (h.counter + 1) % 2 ^ 64 = 0 then .error .Allocation
  else .ok (n, { h with counter := (h.counter + 1) % 2 ^ 64 })

/-- `Heap::allocate`: build the object, consume a counter value (failure
propagates before any heap mutation), insert under the new reference. -/
def Heap.allocate (h : Heap) (children_length data_length : Nat) :
    Except HeapError (Nat × Heap) := do
  let obj := Object.new children_length data_length
  let (obj_ref, h') ← h.get_and_increment_counter
  .ok (obj_ref, { h' with reference_map := hinsert h'.reference_map obj_ref obj })

/-- `Heap::increment_stack_references`: `checked_add` on the u16 counter,
failing with `StackReferenceError` on wrap. -/
def Heap.increment_stack_references (h : Heap) (obj_ref : Nat) :
    Except HeapError (Nat × Heap) :=
  match hfind h.reference_map obj_ref with
  | none => .error .ObjectNotFound
  | some o =>
    if o.stack_references + 1 < 2 ^ 16 then
      let o' : Object := { o with stack_references := o.stack_references + 1 }
      .ok (obj_ref, { h with reference_map := hupdate h.reference_map obj_ref o' })
    else .error .StackReferenceError

/-- `Heap::decrement_stack_references`: `checked_sub`, failing with
`StackReferenceError` below zero. -/
def Heap.decrement_stack_references (h : Heap) (obj_ref : Nat) :
    Except HeapError Heap :=
  match hfind h.reference_map obj_ref with
  | none => .error .ObjectNotFound
  | some o =>
    if 0 < o.stack_references then
      let o' : Object := { o with stack_references := o.stack_references - 1 }
      .ok { h with reference_map := hupdate h.reference_map obj_ref o' }
    else .error .StackReferenceError

/-- `Heap::set_child`. -/
def Heap.set_child (h : Heap) (parent index : Nat) (child : Option Nat) :
    Except HeapError Heap :=
  match hfind h.reference_map parent with
  | none => .error .ObjectNotFound
  | some o => do
    let o' ← o.set_child index child
    .ok { h with reference_map := hupdate h.reference_map parent o' }

/-- `Heap::get_child`. -/
def Heap.get_child (h : Heap) (parent index : Nat) : Except HeapError (Option Nat) :=
  match hfind h.reference_map parent with
  | none => .error .ObjectNotFound
  | some o => o.get_child index

/-- `Heap::get_data_slice`. -/
def Heap.get_data_slice (h : Heap) (obj_ref start length : Nat) :
    Except HeapError (List Nat) :=
  match hfind h.reference_map obj_ref with
  | none => .error .ObjectNotFound
  | some o => o.get_data_slice start length

/-- `Heap::get_mut_data_slice`. -/
def Heap.get_mut_data_slice (h : Heap) (obj_ref start length : Nat) :
    Except HeapError (List Nat) :=
  match hfind h.reference_map obj_ref with
  | none => .error .ObjectNotFound
  | some o => o.get_mut_data_slice start length

/-! ### Garbage collection -/

/-- The non-null child references of the object stored under `r`
(`obj.children.iter().flatten()`). -/
def childRefs (m : List (Nat × Object)) (r : Nat) : List Nat :=
  match hfind m r with
  | some o => o.children.filterMap id
  | none => []

/-- `Heap::sift_garbage`: depth-first unmarking.  `marked` is the set of
references whose scanning status is still `IsGarbage::Yes`; a call on a
still-marked reference unmarks it and recurses through its non-null
children.  The recursion depth of the source is bounded by the number of
still-marked entries, modelled by the explicit `fuel` (the collector
passes one more than the map size, which `sift_garbage_fuel` lemmas show
is sufficient).  The source unwraps the status lookup, panicking on a
reference absent from the map; the main theorem's closedness hypothesis
confines it to heaps where every visited reference is present, on which
this model agrees with the source. -/
def sift_garbage (m : List (Nat × Object)) : Nat → List Nat → Nat → List Nat
  | 0, marked, _ => marked
  | fuel + 1, marked, r =>
    if r ∈ marked then
      (childRefs m r).foldl (sift_garbage m fuel) (marked.erase r)
    else marked

/-- The root set: every entry with `stack_refs > 0`. -/
def rootRefs (m : List (Nat × Object)) : List Nat :=
  (m.filter (fun p => 0 < p.2.stack_references)).map Prod.fst

/-- `Heap::collect_garbage`: mark every entry as garbage, sift from each
root, delete every entry still marked. -/
def Heap.collect_garbage (h : Heap) : Heap :=
  let m := h.reference_map
  let final := (rootRefs m).foldl (sift_garbage m (m.length + 1)) (m.map Prod.fst)
  { h with reference_map := m.filter (fun p => decide (p.1 ∉ final)) }

/-- A child edge: `b` is a non-null child of the object stored at `a`. -/
def childEdge (m : List (Nat × Object)) (a b : Nat) : Prop := b ∈ childRefs m a

/-- A root: an entry whose `stack_refs` is positive. -/
def isRoot (m : List (Nat × Object)) (r : Nat) : Prop :=
  ∃ o, hfind m r = some o ∧ 0 < o.stack_references

/-- Reachability from a root by following non-null child references. -/
def reachableFromRoot (m : List (Nat × Object)) (x : Nat) : Prop :=
  ∃ r, isRoot m r ∧ Relation.ReflTransGen (childEdge m) r x

/-- Every child reference stored anywhere in the map is itself a key of
the map (true of every heap the interpreter builds; dereferencing child
slots of such heaps cannot panic). -/
def ClosedHeap (m : List (Nat × Object)) : Prop :=
  ∀ p ∈ m, ∀ c ∈ p.2.children.filterMap id, c ∈ m.map Prod.fst

instance (m : List (Nat × Object)) : Decidable (ClosedHeap m) := by
  unfold ClosedHeap; infer_instance

/-! ## Interpreter (machine.rs)

`Machine::execute` for the opcodes the verified claims concern
(comparison, JSR, shifts, integer add/sub/mul, float remainder).  The
`Instruction` variants keep the source enum's names; the other opcodes of
the enum are independent match arms that the claims do not touch.  The
state carries the instruction stream position (`stream_position()` right
after decoding, i.e. at the moment `execute` runs), the `Vec<u8>` compute
stack, and the heap (which no modelled arm reads or writes). -/

inductive Instruction where
  | JSR
  | CMP_F4
  | CMP_F8
  | SAR_1
  | SAR_2
  | SAR_4
  | SAR_8
  | ADD_1
  | ADD_2
  | ADD_4
  | ADD_8
  | SUB_1
  | SUB_2
  | SUB_4
  | SUB_8
  | MUL_1
  | MUL_2
  | MUL_4
  | MUL_8
  | REM_F_4
  | REM_F_8
deriving DecidableEq

inductive MachineError where
  | UnknownInstruction (b : Nat)
  | EndOfInstructions
  | IncompleteInstruction (b : Nat)
  | Stack (e : StackError)
  | Heap (e : HeapError)
deriving DecidableEq

structure MachineState where
  pos : Nat
  stack : List Nat
  heap : Heap
deriving DecidableEq

/-- Lift a stack failure into a machine failure (`From<StackError>` and
the `?` operator). -/
def liftStack {α : Type} : Except StackError α → Except MachineError α
  | .ok a => .ok a
  | .error e => .error (.Stack e)

/-- Macro `two_argument_instruction_impl` for a same-width integer
operation: pop `a` (top), pop `b`, push `op a b` re-encoded in width `w`.
-/
def two_argument_instruction_impl (w : Nat) (op : Nat → Nat → Nat)
    (st : MachineState) : Except MachineError MachineState := do
  let (a, s1) ← liftStack (popLE w st.stack)
  let (b, s2) ← liftStack (popLE w s1)
  .ok { st with stack := push_slice s2 (toLE w (op a b)) }

/-- Macro `shift_instruction_impl`: pop the operand `a` at width `w`
(top), pop the shift count as u8 (via the `Vec` `pop_u8` override), push
`op a count` at width `w`. -/
def shift_instruction_impl (w : Nat) (op : Nat → Nat → Nat)
    (st : MachineState) : Except MachineError MachineState := do
  let (a, s1) ← liftStack (popLE w st.stack)
  let (b, s2) ←
    liftStack (match pop_u8 s1 with
      | (.ok v, s') => .ok (v, s')
      | (.error e, _) => .error e)
  .ok { st with stack := push_slice s2 (toLE w (op a b)) }

/-- Macro `compare_instruction_impl` at a float type: pop `a` (top), pop
`b`, decode both bit patterns, take `partial_cmp(&a, &b)`, push the
ordering byte (`cmp as u8`, via the `Vec` `push_u8` override). -/
def compare_instruction_impl_f (w eb mb : Nat) (st : MachineState) :
    Except MachineError MachineState := do
  let (abits, s1) ← liftStack (popLE w st.stack)
  let (bbits, s2) ← liftStack (popLE w s1)
  let cmp := PossiblyOrdering.ofOption
    (fcmp (decodeFloat eb mb abits) (decodeFloat eb mb bbits))
  .ok { st with stack := s2 ++ [cmp.toByte] }

/-- Wrapping `+` in byte width `w` (Rust release-mode `u<8w>` addition as
the specification's modular arithmetic). -/
def wrapAdd (w a b : Nat) : Nat := (a + b) % 2 ^ (8 * w)

/-- Wrapping `-` in byte width `w`. -/
def wrapSub (w a b : Nat) : Nat := (2 ^ (8 * w) + a - b) % 2 ^ (8 * w)

/-- Wrapping `*` in byte width `w`. -/
def wrapMul (w a b : Nat) : Nat := (a * b) % 2 ^ (8 * w)

/-- Reinterpret an unsigned `w`-byte value as two's-complement. -/
def toSigned (w n : Nat) : Int :=
  if n < 2 ^ (8 * w - 1) then (n : Int) else (n : Int) - 2 ^ (8 * w)

/-- Encode an integer back into its unsigned `w`-byte representation. -/
def ofSigned (w : Nat) (i : Int) : Nat := (i % (2 ^ (8 * w) : Nat)).toNat

/-- Rust `>>` on the unsigned type of byte width `w` (SHR, and — by the
source's use of `u32`/`u64` — also SAR_4/SAR_8): a logical shift whose
count is masked to the type's bit width in release mode. -/
def lshr (w a k : Nat) : Nat := a / 2 ^ (k % (8 * w))

/-- Rust `>>` on the signed type of byte width `w` (SAR_1/SAR_2 via
`i8`/`i16`): an arithmetic shift — floor division of the signed value —
with the count masked to the type's bit width. -/
def ashr (w a k : Nat) : Nat :=
  ofSigned w (Int.fdiv (toSigned w a) (2 ^ (k % (8 * w))))

/-- `Machine::execute` on the modelled opcodes.  Source-exact notes: the
`JSR` arm pushes `stream_position()? + 1` (the `+ 1` is in the source);
`SAR_4`/`SAR_8` expand `shift_instruction_impl` at `u32`/`u64`, hence
shift logically; `REM_F_4` expands `two_argument_instruction_impl` at
`f64`, hence pops and pushes 8-byte values. -/
def execute (i : Instruction) (st : MachineState) : Except MachineError MachineState :=
  match i with
  | .JSR => do
    let (address, s1) ← liftStack (popLE 8 st.stack)
    let next_address := (st.pos + 1) % 2 ^ 64
    let s2 := push_slice s1 (toLE 8 next_address)
    .ok { st with stack := s2, pos := address }
  | .CMP_F4 => compare_instruction_impl_f 4 8 23 st
  | .CMP_F8 => compare_instruction_impl_f 8 11 52 st
  | .SAR_1 => shift_instruction_impl 1 (ashr 1) st
  | .SAR_2 => shift_instruction_impl 2 (ashr 2) st
  | .SAR_4 => shift_instruction_impl 4 (lshr 4) st
  | .SAR_8 => shift_instruction_impl 8 (lshr 8) st
  | .ADD_1 => two_argument_instruction_impl 1 (wrapAdd 1) st
  | .ADD_2 => two_argument_instruction_impl 2 (wrapAdd 2) st
  | .ADD_4 => two_argument_instruction_impl 4 (wrapAdd 4) st
  | .ADD_8 => two_argument_instruction_impl 8 (wrapAdd 8) st
  | .SUB_1 => two_argument_instruction_impl 1 (wrapSub 1) st
  | .SUB_2 => two_argument_instruction_impl 2 (wrapSub 2) st
  | .SUB_4 => two_argument_instruction_impl 4 (wrapSub 4) st
  | .SUB_8 => two_argument_instruction_impl 8 (wrapSub 8) st
  | .MUL_1 => two_argument_instruction_impl 1 (wrapMul 1) st
  | .MUL_2 => two_argument_instruction_impl 2 (wrapMul 2) st
  | .MUL_4 => two_argument_instruction_impl 4 (wrapMul 4) st
  | .MUL_8 => two_argument_instruction_impl 8 (wrapMul 8) st
  | .REM_F_4 => do
    let (a, s1) ← liftStack (popLE 8 st.stack)
    let (b, s2) ← liftStack (popLE 8 s1)
    .ok { st with stack := push_slice s2 (toLE 8 (f64RemBits a b)) }
  | .REM_F_8 => do
    let (a, s1) ← liftStack (popLE 8 st.stack)
    let (b, s2) ← liftStack (popLE 8 s1)
    .ok { st with stack := push_slice s2 (toLE 8 (f64RemBits a b)) }

/-- `popLE` is the `Except`-threaded reading of `pop_typed` (the machine
layer never inspects the stack after a fatal error). -/
theorem popLE_eq_pop_typed (w : Nat) (s : List Nat) :
    popLE w s = match pop_typed w s with
      | (.ok v, s') => .ok (v, s')
      | (.error e, _) => .error e := by
  unfold popLE pop_typed
  rcases h : pop_slice s w with ⟨r, s'⟩
  cases r <;> simp

/-! ## Claim theorems -/

/-- C10: every failing stack operation of the `Vec<u8>` implementation is
atomic — when `pop_slice`, `remove_top`, the `pop_u8` override, or any
width-typed `pop_<T>` fails with `Underflow` because the stack holds
fewer bytes than requested, the stack (every byte and the size) is left
exactly as it was before the call. -/
theorem vec_stack_underflow_atomic :
    (∀ (s : List Nat) (n : Nat), s.length < n →
        pop_slice s n = (.error .Underflow, s)) ∧
    (∀ (s : List Nat) (n : Nat), s.length < n →
        remove_top s n = (.error .Underflow, s)) ∧
    (∀ s : List Nat, s.length < 1 →
        pop_u8 s = (.error .Underflow, s)) ∧
    (∀ (w : Nat) (s : List Nat), s.length < w →
        pop_typed w s = (.error .Underflow, s)) := by
  refine ⟨?_, ?_, ?_, ?_⟩
  · intro s n h
    unfold pop_slice
    rw [if_neg (by omega)]
  · intro s n h
    unfold remove_top
    rw [if_neg (by omega)]
  · intro s h
    have : s = [] := by
      cases s with
      | nil => rfl
      | cons a t => simp at h
    subst this
    rfl
  · intro w s h
    unfold pop_typed pop_slice
    rw [if_neg (by omega)]

theorem vec_stack_underflow_atomic_witness :
    ([1, 2] : List Nat).length < 5 ∧
    pop_slice [1, 2] 5 = (.error .Underflow, [1, 2]) ∧
    remove_top [1, 2] 5 = (.error .Underflow, [1, 2]) ∧
    pop_u8 ([] : List Nat) = (.error .Underflow, []) ∧
    pop_typed 8 [1, 2] = (.error .Underflow, [1, 2]) :=
  ⟨by decide,
   vec_stack_underflow_atomic.1 [1, 2] 5 (by decide),
   vec_stack_underflow_atomic.2.1 [1, 2] 5 (by decide),
   vec_stack_underflow_atomic.2.2.1 [] (by decide),
   vec_stack_underflow_atomic.2.2.2 8 [1, 2] (by decide)⟩

/-- C7 counterexample: on the signed types, `infallible_div(MIN, -1)` and
`infallible_rem(MIN, -1)` take the `b != 0` branch and evaluate Rust's
`a / b` / `a % b`, which panic with overflow (`i8::MIN / -1` is not
representable); the claim's `infallible_div(a, b) = a / b = 128` and
totality both fail at this input. -/
theorem infallible_division_min_div_neg_one_panics :
    infallible_div_s 1 (-128) (-1) = none ∧
    infallible_rem_s 1 (-128) (-1) = none := by
  constructor <;> decide

/-- C7 amended: the claim holds in full for the unsigned types, and for
the signed types at every operand pair except `(MIN, -1)`, where both
operations panic instead of returning a value; division by zero never
traps and follows the stated policy for all eight types. -/
theorem infallible_division_characterization :
    (∀ w a b : Nat,
      (b = 0 → infallible_div_u w a b = 2 ^ (8 * w) - 1 ∧ infallible_rem_u w a b = a) ∧
      (b ≠ 0 → infallible_div_u w a b = a / b ∧ infallible_rem_u w a b = a % b)) ∧
    (∀ (w : Nat) (a b : Int),
      (b = 0 → infallible_div_s w a b = some (2 ^ (8 * w - 1) - 1) ∧
        infallible_rem_s w a b = some a) ∧
      (b ≠ 0 → ¬(a = -(2 ^ (8 * w - 1)) ∧ b = -1) →
        infallible_div_s w a b = some (Int.tdiv a b) ∧
        infallible_rem_s w a b = some (Int.tmod a b)) ∧
      (a = -(2 ^ (8 * w - 1)) ∧ b = -1 →
        infallible_div_s w a b = none ∧ infallible_rem_s w a b = none)) := by
  constructor
  · intro w a b
    constructor
    · intro hb
      subst hb
      simp [infallible_div_u, infallible_rem_u]
    · intro hb
      simp [infallible_div_u, infallible_rem_u, hb]
  · intro w a b
    refine ⟨?_, ?_, ?_⟩
    · intro hb
      subst hb
      simp [infallible_div_s, infallible_rem_s]
    · intro hb hmin
      simp [infallible_div_s, infallible_rem_s, rust_sdiv, rust_srem, hb, hmin]
    · rintro ⟨ha, hb⟩
      subst ha; subst hb
      simp [infallible_div_s, infallible_rem_s, rust_sdiv, rust_srem]

theorem infallible_division_characterization_witness :
    ((7 : Int) ≠ 0 ∧ ¬((10 : Int) = -(2 ^ (8 * 1 - 1)) ∧ (7 : Int) = -1)) ∧
    (infallible_div_s 1 10 7 = some (Int.tdiv 10 7) ∧
      infallible_rem_s 1 10 7 = some (Int.tmod 10 7)) :=
  ⟨⟨by decide, by decide⟩,
   (infallible_division_characterization.2 1 10 7).2.1 (by decide) (by decide)⟩

/-- C2: the `JSR` arm pushes `stream_position()? + 1`, one byte past the
position at the moment of execution.  With the stream at position 9 after
decoding `JSR` and the address 100 on the stack, the code pushes 10 and
seeks to 100, while the claim (and §9 of the specification) require the
pushed return address to be 9. -/
theorem JSR_return_address_off_by_one :
    execute .JSR { pos := 9, stack := toLE 8 100, heap := Heap.new } =
      .ok { pos := 100, stack := toLE 8 10, heap := Heap.new } ∧
    (10 : Nat) ≠ 9 := by
  constructor
  · decide
  · decide

/-- C3: `SAR_4` (and `SAR_8`) expand `shift_instruction_impl` at the
unsigned type, producing a logical shift.  Shifting `0x80000000` right by
1 yields `0x40000000` (high bit cleared), not the sign-extended
`0xC0000000` the claim requires; `SAR_8` behaves the same at
`0x8000000000000000`. -/
theorem SAR_wide_widths_shift_logically :
    execute .SAR_4 { pos := 0, stack := [1] ++ toLE 4 0x80000000, heap := Heap.new } =
      .ok { pos := 0, stack := toLE 4 0x40000000, heap := Heap.new } ∧
    execute .SAR_8 { pos := 0, stack := [1] ++ toLE 8 0x8000000000000000, heap := Heap.new } =
      .ok { pos := 0, stack := toLE 8 0x4000000000000000, heap := Heap.new } ∧
    (0x40000000 : Nat) ≠ 0xC0000000 ∧
    ofSigned 4 (Int.fdiv (toSigned 4 0x80000000) (2 ^ (1 % 32))) = 0xC0000000 := by
  refine ⟨by decide, by decide, by decide, by decide⟩

theorem two_argument_eq (w : Nat) (op : Nat → Nat → Nat) (p : Nat) (hp : Heap)
    (rest : List Nat) (a b : Nat) (ha : a < 2 ^ (8 * w)) (hb : b < 2 ^ (8 * w)) :
    two_argument_instruction_impl w op
        { pos := p, stack := rest ++ toLE w b ++ toLE w a, heap := hp } =
      .ok { pos := p, stack := rest ++ toLE w (op a b), heap := hp } := by
  have h1 : popLE w (rest ++ (toLE w b ++ toLE w a)) = .ok (a, rest ++ toLE w b) := by
    rw [← List.append_assoc]
    exact popLE_append w (rest ++ toLE w b) a ha
  have h2 : popLE w (rest ++ toLE w b) = .ok (b, rest) := popLE_append w rest b hb
  simp [two_argument_instruction_impl, liftStack, bind, Except.bind, h1, h2, push_slice]

theorem two_argument_total (w : Nat) (op : Nat → Nat → Nat) (st : MachineState)
    (h : 2 * w ≤ st.stack.length) :
    ∃ st', two_argument_instruction_impl w op st = .ok st' := by
  unfold two_argument_instruction_impl
  have h1 : w ≤ st.stack.length := by omega
  have h2 : w ≤ (st.stack.take (st.stack.length - w)).length := by
    simp only [List.length_take]
    omega
  rw [popLE_ok w st.stack h1]
  simp only [liftStack, bind, Except.bind]
  rw [popLE_ok w _ h2]
  exact ⟨_, rfl⟩

/-- C4: for every width W ∈ {1,2,4,8} and all operands `a` (popped first,
the top of stack) and `b` (popped second), ADD_W, SUB_W and MUL_W push
the W-byte value of `a + b`, `a - b` and `a * b` computed modulo
`2 ^ (8 W)` (Rust release-mode wrap-around, the semantics the
specification mandates), and `two_argument_instruction_impl` — hence each
of these opcodes — never fails on a stack holding at least `2 W` bytes. -/
theorem add_sub_mul_wrap_and_total :
    (∀ (p : Nat) (hp : Heap) (rest : List Nat) (a b : Nat), a < 2 ^ 8 → b < 2 ^ 8 →
      execute .ADD_1 { pos := p, stack := rest ++ toLE 1 b ++ toLE 1 a, heap := hp } =
        .ok { pos := p, stack := rest ++ toLE 1 ((a + b) % 2 ^ 8), heap := hp }) ∧
    (∀ (p : Nat) (hp : Heap) (rest : List Nat) (a b : Nat), a < 2 ^ 16 → b < 2 ^ 16 →
      execute .ADD_2 { pos := p, stack := rest ++ toLE 2 b ++ toLE 2 a, heap := hp } =
        .ok { pos := p, stack := rest ++ toLE 2 ((a + b) % 2 ^ 16), heap := hp }) ∧
    (∀ (p : Nat) (hp : Heap) (rest : List Nat) (a b : Nat), a < 2 ^ 32 → b < 2 ^ 32 →
      execute .ADD_4 { pos := p, stack := rest ++ toLE 4 b ++ toLE 4 a, heap := hp } =
        .ok { pos := p, stack := rest ++ toLE 4 ((a + b) % 2 ^ 32), heap := hp }) ∧
    (∀ (p : Nat) (hp : Heap) (rest : List Nat) (a b : Nat), a < 2 ^ 64 → b < 2 ^ 64 →
      execute .ADD_8 { pos := p, stack := rest ++ toLE 8 b ++ toLE 8 a, heap := hp } =
        .ok { pos := p, stack := rest ++ toLE 8 ((a + b) % 2 ^ 64), heap := hp }) ∧
    (∀ (p : Nat) (hp : Heap) (rest : List Nat) (a b : Nat), a < 2 ^ 8 → b < 2 ^ 8 →
      execute .SUB_1 { pos := p, stack := rest ++ toLE 1 b ++ toLE 1 a, heap := hp } =
        .ok { pos := p, stack := rest ++ toLE 1 ((2 ^ 8 + a - b) % 2 ^ 8), heap := hp }) ∧
    (∀ (p : Nat) (hp : Heap) (rest : List Nat) (a b : Nat), a < 2 ^ 16 → b < 2 ^ 16 →
      execute .SUB_2 { pos := p, stack := rest ++ toLE 2 b ++ toLE 2 a, heap := hp } =
        .ok { pos := p, stack := rest ++ toLE 2 ((2 ^ 16 + a - b) % 2 ^ 16), heap := hp }) ∧
    (∀ (p : Nat) (hp : Heap) (rest : List Nat) (a b : Nat), a < 2 ^ 32 → b < 2 ^ 32 →
      execute .SUB_4 { pos := p, stack := rest ++ toLE 4 b ++ toLE 4 a, heap := hp } =
        .ok { pos := p, stack := rest ++ toLE 4 ((2 ^ 32 + a - b) % 2 ^ 32), heap := hp }) ∧
    (∀ (p : Nat) (hp : Heap) (rest : List Nat) (a b : Nat), a < 2 ^ 64 → b < 2 ^ 64 →
      execute .SUB_8 { pos := p, stack := rest ++ toLE 8 b ++ toLE 8 a, heap := hp } =
        .ok { pos := p, stack := rest ++ toLE 8 ((2 ^ 64 + a - b) % 2 ^ 64), heap := hp }) ∧
    (∀ (p : Nat) (hp : Heap) (rest : List Nat) (a b : Nat), a < 2 ^ 8 → b < 2 ^ 8 →
      execute .MUL_1 { pos := p, stack := rest ++ toLE 1 b ++ toLE 1 a, heap := hp } =
        .ok { pos := p, stack := rest ++ toLE 1 ((a * b) % 2 ^ 8), heap := hp }) ∧
    (∀ (p : Nat) (hp : Heap) (rest : List Nat) (a b : Nat), a < 2 ^ 16 → b < 2 ^ 16 →
      execute .MUL_2 { pos := p, stack := rest ++ toLE 2 b ++ toLE 2 a, heap := hp } =
        .ok { pos := p, stack := rest ++ toLE 2 ((a * b) % 2 ^ 16), heap := hp }) ∧
    (∀ (p : Nat) (hp : Heap) (rest : List Nat) (a b : Nat), a < 2 ^ 32 → b < 2 ^ 32 →
      execute .MUL_4 { pos := p, stack := rest ++ toLE 4 b ++ toLE 4 a, heap := hp } =
        .ok { pos := p, stack := rest ++ toLE 4 ((a * b) % 2 ^ 32), heap := hp }) ∧
    (∀ (p : Nat) (hp : Heap) (rest : List Nat) (a b : Nat), a < 2 ^ 64 → b < 2 ^ 64 →
      execute .MUL_8 { pos := p, stack := rest ++ toLE 8 b ++ toLE 8 a, heap := hp } =
        .ok { pos := p, stack := rest ++ toLE 8 ((a * b) % 2 ^ 64), heap := hp }) ∧
    (∀ (w : Nat) (op : Nat → Nat → Nat) (st : MachineState), 2 * w ≤ st.stack.length →
      ∃ st', two_argument_instruction_impl w op st = .ok st') := by
  refine ⟨?_, ?_, ?_, ?_, ?_, ?_, ?_, ?_, ?_, ?_, ?_, ?_, ?_⟩
  all_goals first
  | exact fun p hp rest a b ha hb => two_argument_eq _ _ p hp rest a b ha hb
  | exact fun w op st h => two_argument_total w op st h

theorem add_sub_mul_wrap_and_total_witness :
    ((200 : Nat) < 2 ^ 8 ∧ (100 : Nat) < 2 ^ 8) ∧
    execute .ADD_1 { pos := 0, stack := [] ++ toLE 1 100 ++ toLE 1 200, heap := Heap.new } =
      .ok { pos := 0, stack := [] ++ toLE 1 ((200 + 100) % 2 ^ 8), heap := Heap.new } :=
  ⟨⟨by decide, by decide⟩,
   add_sub_mul_wrap_and_total.1 0 Heap.new [] 200 100 (by decide) (by decide)⟩

theorem fcmp_eq_none_iff (x y : FVal) : fcmp x y = none ↔ x = .nan ∨ y = .nan := by
  cases x <;> cases y <;> simp [fcmp]

theorem ofOption_toByte_eq_zero_iff (o : Option Ordering) :
    (PossiblyOrdering.ofOption o).toByte = 0 ↔ o = none := by
  cases o with
  | none => simp [PossiblyOrdering.ofOption, PossiblyOrdering.toByte]
  | some ord => cases ord <;> simp [PossiblyOrdering.ofOption, PossiblyOrdering.toByte]

theorem compare_f_eq (w eb mb p : Nat) (hp : Heap) (rest : List Nat) (a b : Nat)
    (ha : a < 2 ^ (8 * w)) (hb : b < 2 ^ (8 * w)) :
    compare_instruction_impl_f w eb mb
        { pos := p, stack := rest ++ toLE w b ++ toLE w a, heap := hp } =
      .ok { pos := p,
            stack := rest ++
              [(PossiblyOrdering.ofOption
                (fcmp (decodeFloat eb mb a) (decodeFloat eb mb b))).toByte],
            heap := hp } := by
  have h1 : popLE w (rest ++ (toLE w b ++ toLE w a)) = .ok (a, rest ++ toLE w b) := by
    rw [← List.append_assoc]
    exact popLE_append w (rest ++ toLE w b) a ha
  have h2 : popLE w (rest ++ toLE w b) = .ok (b, rest) := popLE_append w rest b hb
  simp [compare_instruction_impl_f, liftStack, bind, Except.bind, h1, h2]

/-- C1 counterexample: `compare_instruction_impl` takes Rust's
`partial_cmp`, under which NaN is incomparable.  Executing `CMP_F4` with
the quiet-NaN bit pattern `0x7FC00000` on top (`a`) and `1.0`
(`0x3F800000`) below (`b`) pushes the byte 0 (Unordered) — the byte the
claim says is never pushed; under IEEE-754 `totalOrder` the result would
have been 3 (Greater). -/
theorem cmp_f4_pushes_unordered_on_nan :
    execute .CMP_F4
        { pos := 0, stack := toLE 4 0x3F800000 ++ toLE 4 0x7FC00000, heap := Heap.new } =
      .ok { pos := 0, stack := [0], heap := Heap.new } := by
  have h := compare_f_eq 4 8 23 0 Heap.new [] 0x7FC00000 0x3F800000
    (by norm_num) (by norm_num)
  simp only [List.nil_append] at h
  have hnan : decodeFloat 8 23 0x7FC00000 = .nan := by
    unfold decodeFloat
    norm_num
  have hcmp : fcmp (decodeFloat 8 23 0x7FC00000) (decodeFloat 8 23 0x3F800000) = none := by
    rw [hnan]
    rfl
  rw [hcmp] at h
  exact h

/-- C1 amended: `CMP_F4`/`CMP_F8` pop `a` (top) and `b`, compute Rust's
`partial_cmp(a, b)` — the IEEE partial order, not `totalOrder` — and push
its `PossiblyOrdering` byte: 0 (Unordered) exactly when either operand is
NaN, and otherwise 1/2/3 according to the numeric order (with
`-0.0 = 0.0` and the infinities at the ends). -/
theorem cmp_f_uses_partial_cmp :
    (∀ (p : Nat) (hp : Heap) (rest : List Nat) (a b : Nat), a < 2 ^ 32 → b < 2 ^ 32 →
      execute .CMP_F4 { pos := p, stack := rest ++ toLE 4 b ++ toLE 4 a, heap := hp } =
        .ok { pos := p,
              stack := rest ++
                [(PossiblyOrdering.ofOption (fcmp (decodeF32 a) (decodeF32 b))).toByte],
              heap := hp } ∧
      ((PossiblyOrdering.ofOption (fcmp (decodeF32 a) (decodeF32 b))).toByte = 0 ↔
        (isNaNBits 8 23 a ∨ isNaNBits 8 23 b))) ∧
    (∀ (p : Nat) (hp : Heap) (rest : List Nat) (a b : Nat), a < 2 ^ 64 → b < 2 ^ 64 →
      execute .CMP_F8 { pos := p, stack := rest ++ toLE 8 b ++ toLE 8 a, heap := hp } =
        .ok { pos := p,
              stack := rest ++
                [(PossiblyOrdering.ofOption (fcmp (decodeF64 a) (decodeF64 b))).toByte],
              heap := hp } ∧
      ((PossiblyOrdering.ofOption (fcmp (decodeF64 a) (decodeF64 b))).toByte = 0 ↔
        (isNaNBits 11 52 a ∨ isNaNBits 11 52 b))) := by
  constructor
  · intro p hp rest a b ha hb
    refine ⟨compare_f_eq 4 8 23 p hp rest a b ha hb, ?_⟩
    rw [ofOption_toByte_eq_zero_iff, fcmp_eq_none_iff]
    rfl
  · intro p hp rest a b ha hb
    refine ⟨compare_f_eq 8 11 52 p hp rest a b ha hb, ?_⟩
    rw [ofOption_toByte_eq_zero_iff, fcmp_eq_none_iff]
    rfl

theorem cmp_f_uses_partial_cmp_witness :
    ((0x3F800000 : Nat) < 2 ^ 32 ∧ (0x40000000 : Nat) < 2 ^ 32) ∧
    (execute .CMP_F4
        { pos := 0, stack := [] ++ toLE 4 0x40000000 ++ toLE 4 0x3F800000, heap := Heap.new } =
      .ok { pos := 0,
            stack := [] ++
              [(PossiblyOrdering.ofOption
                (fcmp (decodeF32 0x3F800000) (decodeF32 0x40000000))).toByte],
            heap := Heap.new } ∧
      ((PossiblyOrdering.ofOption
          (fcmp (decodeF32 0x3F800000) (decodeF32 0x40000000))).toByte = 0 ↔
        (isNaNBits 8 23 0x3F800000 ∨ isNaNBits 8 23 0x40000000))) :=
  ⟨⟨by norm_num, by norm_num⟩,
   cmp_f_uses_partial_cmp.1 0 Heap.new [] 0x3F800000 0x40000000 (by norm_num) (by norm_num)⟩

theorem rem_f_4_eq (p : Nat) (hp : Heap) (rest : List Nat) (a b : Nat)
    (ha : a < 2 ^ 64) (hb : b < 2 ^ 64) :
    execute .REM_F_4 { pos := p, stack := rest ++ toLE 8 b ++ toLE 8 a, heap := hp } =
      .ok { pos := p, stack := rest ++ toLE 8 (f64RemBits a b), heap := hp } := by
  have ha' : a < 2 ^ (8 * 8) := by norm_num at ha ⊢; omega
  have hb' : b < 2 ^ (8 * 8) := by norm_num at hb ⊢; omega
  have h1 : popLE 8 (rest ++ (toLE 8 b ++ toLE 8 a)) = .ok (a, rest ++ toLE 8 b) := by
    rw [← List.append_assoc]
    exact popLE_append 8 (rest ++ toLE 8 b) a ha'
  have h2 : popLE 8 (rest ++ toLE 8 b) = .ok (b, rest) := popLE_append 8 rest b hb'
  simp [execute, liftStack, bind, Except.bind, h1, h2, push_slice]

/-- The remainder model keeps the dividend's sign on a zero result, as
`fmod` does: `-2.0 % 2.0` produces `-0.0` (bytes of
`0x8000000000000000`), not `+0.0`. -/
theorem f64RemBits_keeps_dividend_zero_sign :
    f64RemBits 0xC000000000000000 0x4000000000000000 = 0x8000000000000000 := by
  have hda : decodeF64 0xC000000000000000 = .fin (-2) := by
    unfold decodeF64 decodeFloat
    norm_num
  have hdb : decodeF64 0x4000000000000000 = .fin 2 := by
    unfold decodeF64 decodeFloat
    norm_num
  have hrem : frem (decodeF64 0xC000000000000000) (decodeF64 0x4000000000000000) =
      .fin 0 := by
    rw [hda, hdb]
    unfold frem fmodQ ratTrunc
    norm_num
  unfold f64RemBits
  rw [hrem]
  show (if (0 : ℚ) = 0 then 0xC000000000000000 / 2 ^ 63 % 2 * 2 ^ 63
    else encodeF64 (.fin 0)) = 0x8000000000000000
  rw [if_pos rfl]
  decide

/-- C6 counterexample: `REM_F_4` expands `two_argument_instruction_impl`
at `f64`: with the 16-byte stack holding the binary64 encodings of 2.0
(below) and 5.0 (top) it succeeds, popping two 8-byte operands and
pushing an 8-byte result, so the stack ends at 8 bytes — it shrank by 8,
not by the 4 bytes the claim states (a binary32 `REM_F_4` would have left
12 bytes). -/
theorem rem_f_4_pops_eight_byte_operands :
    execute .REM_F_4
        { pos := 0,
          stack := toLE 8 0x4000000000000000 ++ toLE 8 0x4014000000000000,
          heap := Heap.new } =
      .ok { pos := 0,
            stack := toLE 8 (f64RemBits 0x4014000000000000 0x4000000000000000),
            heap := Heap.new } ∧
    (toLE 8 0x4000000000000000 ++ toLE 8 0x4014000000000000).length = 16 ∧
    (toLE 8 (f64RemBits 0x4014000000000000 0x4000000000000000)).length = 8 ∧
    (16 : Nat) - 8 ≠ 4 := by
  refine ⟨?_, ?_, ?_, ?_⟩
  · have h := rem_f_4_eq 0 Heap.new [] 0x4014000000000000 0x4000000000000000
      (by norm_num) (by norm_num)
    simpa using h
  · simp [toLE_length]
  · simp [toLE_length]
  · decide

/-- C6 amended: `REM_F_4` operates entirely in IEEE-754 binary64: it pops
an 8-byte value `a` (top) and an 8-byte value `b`, both decoded as
binary64, and pushes 8 bytes, so the stack shrinks by exactly 8 bytes.
When the binary64 remainder (`fmod`) of `a` by `b` is not NaN, the pushed
bytes are its exact encoding — a zero result carrying the dividend's sign
bit; when it is NaN, the pushed bytes decode to NaN (the payload is
libm-dependent and not asserted). -/
theorem rem_f_4_operates_in_binary64 (p : Nat) (hp : Heap) (rest : List Nat) (a b : Nat)
    (ha : a < 2 ^ 64) (hb : b < 2 ^ 64) :
    (∃ out : List Nat, out.length = 8 ∧
      execute .REM_F_4 { pos := p, stack := rest ++ toLE 8 b ++ toLE 8 a, heap := hp } =
        .ok { pos := p, stack := rest ++ out, heap := hp } ∧
      (rest ++ toLE 8 b ++ toLE 8 a).length = (rest ++ out).length + 8 ∧
      (frem (decodeF64 a) (decodeF64 b) = .nan → decodeF64 (fromLE out) = .nan)) ∧
    (frem (decodeF64 a) (decodeF64 b) ≠ .nan →
      execute .REM_F_4 { pos := p, stack := rest ++ toLE 8 b ++ toLE 8 a, heap := hp } =
        .ok { pos := p, stack := rest ++ toLE 8 (f64RemBits a b), heap := hp }) ∧
    (frem (decodeF64 a) (decodeF64 b) = .fin 0 →
      f64RemBits a b = a / 2 ^ 63 % 2 * 2 ^ 63) := by
  refine ⟨⟨toLE 8 (f64RemBits a b), toLE_length 8 _,
    rem_f_4_eq p hp rest a b ha hb, ?_, ?_⟩, ?_, ?_⟩
  · simp [toLE_length]
  · intro hnan
    have hbits : f64RemBits a b = 0x7FF8000000000000 := by
      unfold f64RemBits
      rw [hnan]
      rfl
    rw [hbits, fromLE_toLE 8 _ (by norm_num)]
    decide
  · intro _
    exact rem_f_4_eq p hp rest a b ha hb
  · intro hzero
    unfold f64RemBits
    rw [hzero]
    show (if (0 : ℚ) = 0 then a / 2 ^ 63 % 2 * 2 ^ 63 else encodeF64 (.fin 0)) =
      a / 2 ^ 63 % 2 * 2 ^ 63
    rw [if_pos rfl]

theorem rem_f_4_operates_in_binary64_witness :
    ((0x3FF0000000000000 : Nat) < 2 ^ 64 ∧ (0x3FE0000000000000 : Nat) < 2 ^ 64) ∧
    ((∃ out : List Nat, out.length = 8 ∧
      execute .REM_F_4
          { pos := 0,
            stack := [] ++ toLE 8 0x3FE0000000000000 ++ toLE 8 0x3FF0000000000000,
            heap := Heap.new } =
        .ok { pos := 0, stack := [] ++ out, heap := Heap.new } ∧
      ([] ++ toLE 8 0x3FE0000000000000 ++ toLE 8 0x3FF0000000000000).length =
        ([] ++ out).length + 8 ∧
      (frem (decodeF64 0x3FF0000000000000) (decodeF64 0x3FE0000000000000) = .nan →
        decodeF64 (fromLE out) = .nan)) ∧
    (frem (decodeF64 0x3FF0000000000000) (decodeF64 0x3FE0000000000000) ≠ .nan →
      execute .REM_F_4
          { pos := 0,
            stack := [] ++ toLE 8 0x3FE0000000000000 ++ toLE 8 0x3FF0000000000000,
            heap := Heap.new } =
        .ok { pos := 0,
              stack := [] ++ toLE 8 (f64RemBits 0x3FF0000000000000 0x3FE0000000000000),
              heap := Heap.new }) ∧
    (frem (decodeF64 0x3FF0000000000000) (decodeF64 0x3FE0000000000000) = .fin 0 →
      f64RemBits 0x3FF0000000000000 0x3FE0000000000000 =
        0x3FF0000000000000 / 2 ^ 63 % 2 * 2 ^ 63)) :=
  ⟨⟨by norm_num, by norm_num⟩,
   rem_f_4_operates_in_binary64 0 Heap.new [] 0x3FF0000000000000 0x3FE0000000000000
     (by norm_num) (by norm_num)⟩

/-- C9: `get_data_slice` and `get_mut_data_slice` are total on every
object: for `usize` arguments (below `2 ^ 64`) they return the `length`
bytes at offsets `[start, start + length)` of the object's data exactly
when that range lies within the data region, and otherwise fail with
`OutOfBoundsObjectDataAccess` — including when `start + length` wraps
around `2 ^ 64` (release-mode `usize` addition), since the wrapped range
end falls below `start` and `slice::get` rejects the inverted range. -/
theorem get_data_slice_total (h : Heap) (r start length : Nat) (o : Object)
    (hfound : hfind h.reference_map r = some o)
    (hs : start < 2 ^ 64) (hl : length < 2 ^ 64) (hd : o.data.length < 2 ^ 64) :
    (start + length ≤ o.data.length →
      Heap.get_data_slice h r start length = .ok ((o.data.drop start).take length) ∧
      Heap.get_mut_data_slice h r start length = .ok ((o.data.drop start).take length) ∧
      ((o.data.drop start).take length).length = length) ∧
    (o.data.length < start + length →
      Heap.get_data_slice h r start length = .error .OutOfBoundsObjectDataAccess ∧
      Heap.get_mut_data_slice h r start length = .error .OutOfBoundsObjectDataAccess) := by
  have hmut : Heap.get_mut_data_slice h r start length = Heap.get_data_slice h r start length := by
    unfold Heap.get_mut_data_slice Heap.get_data_slice Object.get_mut_data_slice
    rfl
  constructor
  · intro hle
    have he : (start + length) % 2 ^ 64 = start + length := Nat.mod_eq_of_lt (by omega)
    have hmain : Heap.get_data_slice h r start length = .ok ((o.data.drop start).take length) := by
      simp only [Heap.get_data_slice, hfound, Object.get_data_slice, he]
      rw [if_pos ⟨by omega, by omega⟩]
      have harith : start + length - start = length := by omega
      rw [harith]
    refine ⟨hmain, by rw [hmut, hmain], ?_⟩
    simp only [List.length_take, List.length_drop]
    omega
  · intro hgt
    have hmain : Heap.get_data_slice h r start length =
        .error .OutOfBoundsObjectDataAccess := by
      simp only [Heap.get_data_slice, hfound, Object.get_data_slice]
      rw [if_neg ?_]
      rintro ⟨h1, h2⟩
      omega
    exact ⟨hmain, by rw [hmut, hmain]⟩

theorem get_data_slice_total_witness :
    (hfind [(5, Object.new 0 4)] 5 = some (Object.new 0 4) ∧
      (1 : Nat) < 2 ^ 64 ∧ (2 : Nat) < 2 ^ 64 ∧ (Object.new 0 4).data.length < 2 ^ 64) ∧
    ((1 + 2 ≤ (Object.new 0 4).data.length →
      Heap.get_data_slice { counter := 6, reference_map := [(5, Object.new 0 4)] } 5 1 2 =
        .ok (((Object.new 0 4).data.drop 1).take 2) ∧
      Heap.get_mut_data_slice { counter := 6, reference_map := [(5, Object.new 0 4)] } 5 1 2 =
        .ok (((Object.new 0 4).data.drop 1).take 2) ∧
      (((Object.new 0 4).data.drop 1).take 2).length = 2) ∧
    ((Object.new 0 4).data.length < 1 + 2 →
      Heap.get_data_slice { counter := 6, reference_map := [(5, Object.new 0 4)] } 5 1 2 =
        .error .OutOfBoundsObjectDataAccess ∧
      Heap.get_mut_data_slice { counter := 6, reference_map := [(5, Object.new 0 4)] } 5 1 2 =
        .error .OutOfBoundsObjectDataAccess)) :=
  ⟨⟨by decide, by norm_num, by norm_num, by decide⟩,
   get_data_slice_total { counter := 6, reference_map := [(5, Object.new 0 4)] } 5 1 2
     (Object.new 0 4) (by decide) (by norm_num) (by norm_num) (by decide)⟩

/-! ### C8 apparatus: successive heap operations within one machine run -/

/-- One heap-mutating operation as performed by the interpreter: a
successful or failing allocation (a failing one propagates its error
before any heap field is written, so the heap is unchanged), a successful
reference-count adjustment, a child write, or a garbage collection. -/
inductive HeapStep : Heap → Heap → Prop where
  | alloc {h h' : Heap} (cl dl r : Nat) :
      Heap.allocate h cl dl = .ok (r, h') → HeapStep h h'
  | allocFail {h : Heap} (cl dl : Nat) (e : HeapError) :
      Heap.allocate h cl dl = .error e → HeapStep h h
  | incr {h h' : Heap} (r x : Nat) :
      Heap.increment_stack_references h r = .ok (x, h') → HeapStep h h'
  | decr {h h' : Heap} (r : Nat) :
      Heap.decrement_stack_references h r = .ok h' → HeapStep h h'
  | setChild {h h' : Heap} (p i : Nat) (c : Option Nat) :
      Heap.set_child h p i c = .ok h' → HeapStep h h'
  | gc {h : Heap} : HeapStep h h.collect_garbage

theorem allocate_ok_inv (h : Heap) (cl dl r : Nat) (h' : Heap)
    (heq : Heap.allocate h cl dl = .ok (r, h')) :
    (h.counter + 1) % 2 ^ 64 ≠ 0 ∧ r = h.counter ∧ h'.counter = (h.counter + 1) % 2 ^ 64 := by
  unfold Heap.allocate Heap.get_and_increment_counter at heq
  simp only [bind, Except.bind] at heq
  by_cases hc : (h.counter + 1) % 2 ^ 64 = 0
  · rw [if_pos hc] at heq
    exact Except.noConfusion heq
  · rw [if_neg hc] at heq
    simp only [Except.ok.injEq, Prod.mk.injEq] at heq
    obtain ⟨h1, h2⟩ := heq
    subst h2
    exact ⟨hc, h1.symm, rfl⟩

theorem allocate_error_at_max (h : Heap) (cl dl : Nat) (hc : h.counter = 2 ^ 64 - 1) :
    Heap.allocate h cl dl = .error .Allocation := by
  have hc0 : (h.counter + 1) % 2 ^ 64 = 0 := by
    rw [hc]
    norm_num
  unfold Heap.allocate Heap.get_and_increment_counter
  simp only [bind, Except.bind]
  rw [if_pos hc0]

theorem increment_ok_counter (h : Heap) (r x : Nat) (h' : Heap)
    (heq : Heap.increment_stack_references h r = .ok (x, h')) : h'.counter = h.counter := by
  unfold Heap.increment_stack_references at heq
  rcases hf : hfind h.reference_map r with _ | o <;> simp only [hf] at heq
  · exact Except.noConfusion heq
  · by_cases hlt : o.stack_references + 1 < 2 ^ 16
    · rw [if_pos hlt] at heq
      simp only [Except.ok.injEq, Prod.mk.injEq] at heq
      obtain ⟨h1, h2⟩ := heq
      subst h2
      rfl
    · rw [if_neg hlt] at heq
      exact Except.noConfusion heq

theorem decrement_ok_counter (h : Heap) (r : Nat) (h' : Heap)
    (heq : Heap.decrement_stack_references h r = .ok h') : h'.counter = h.counter := by
  unfold Heap.decrement_stack_references at heq
  rcases hf : hfind h.reference_map r with _ | o <;> simp only [hf] at heq
  · exact Except.noConfusion heq
  · by_cases hlt : 0 < o.stack_references
    · rw [if_pos hlt] at heq
      simp only [Except.ok.injEq] at heq
      subst heq
      rfl
    · rw [if_neg hlt] at heq
      exact Except.noConfusion heq

theorem set_child_ok_counter (h : Heap) (p i : Nat) (c : Option Nat) (h' : Heap)
    (heq : Heap.set_child h p i c = .ok h') : h'.counter = h.counter := by
  unfold Heap.set_child Object.set_child at heq
  rcases hf : hfind h.reference_map p with _ | o <;> simp only [hf] at heq
  · exact Except.noConfusion heq
  · simp only [bind, Except.bind] at heq
    by_cases hlen : i < o.children.length
    · rw [if_pos hlen] at heq
      simp only [Except.ok.injEq] at heq
      subst heq
      rfl
    · rw [if_neg hlen] at heq
      exact Except.noConfusion heq

theorem collect_garbage_counter (h : Heap) : h.collect_garbage.counter = h.counter := rfl

theorem heapStep_counter (h h' : Heap) (s : HeapStep h h') (hc : h.counter < 2 ^ 64) :
    h.counter ≤ h'.counter ∧ h'.counter < 2 ^ 64 := by
  cases s with
  | alloc cl dl r heq =>
    obtain ⟨hnz, _, hcount⟩ := allocate_ok_inv h cl dl r h' heq
    rw [hcount]
    constructor
    · rcases Nat.lt_or_ge (h.counter + 1) (2 ^ 64) with hlt | hge
      · rw [Nat.mod_eq_of_lt hlt]
        omega
      · exfalso
        apply hnz
        have : h.counter + 1 = 2 ^ 64 := by omega
        rw [this]
        norm_num
    · exact Nat.mod_lt _ (by norm_num)
  | allocFail cl dl e heq => exact ⟨le_refl _, hc⟩
  | incr r x heq => rw [increment_ok_counter h r x h' heq]; exact ⟨le_refl _, hc⟩
  | decr r heq => rw [decrement_ok_counter h r h' heq]; exact ⟨le_refl _, hc⟩
  | setChild p i c heq => rw [set_child_ok_counter h p i c h' heq]; exact ⟨le_refl _, hc⟩
  | gc => rw [collect_garbage_counter h]; exact ⟨le_refl _, hc⟩

theorem heapSteps_counter (h h' : Heap) (s : Relation.ReflTransGen HeapStep h h')
    (hc : h.counter < 2 ^ 64) : h.counter ≤ h'.counter ∧ h'.counter < 2 ^ 64 := by
  induction s with
  | refl => exact ⟨le_refl _, hc⟩
  | tail _ hstep ih =>
    obtain ⟨hle, hlt⟩ := ih
    obtain ⟨hle', hlt'⟩ := heapStep_counter _ _ hstep hlt
    exact ⟨le_trans hle hle', hlt'⟩

theorem heapStep_counter_max (h h' : Heap) (s : HeapStep h h')
    (hc : h.counter = 2 ^ 64 - 1) : h'.counter = 2 ^ 64 - 1 := by
  cases s with
  | alloc cl dl r heq =>
    rw [allocate_error_at_max h cl dl hc] at heq
    exact absurd heq (by simp)
  | allocFail cl dl e heq => exact hc
  | incr r x heq => rw [increment_ok_counter h r x h' heq]; exact hc
  | decr r heq => rw [decrement_ok_counter h r h' heq]; exact hc
  | setChild p i c heq => rw [set_child_ok_counter h p i c h' heq]; exact hc
  | gc => rw [collect_garbage_counter h]; exact hc

/-- C8: the allocation counter starts at 1; a successful `allocate`
returns the current (non-zero) counter value and advances the counter by
one; across any sequence of heap operations the counter never decreases,
so a later successful allocation always returns a strictly greater
reference than an earlier one — references are never reused, even after
garbage collection reclaims objects; and once the counter holds
`u64::MAX` (the value whose advance would wrap to zero), `allocate` fails
with `Allocation`, and still fails after any further sequence of heap
operations. -/
theorem allocation_counter_properties :
    (Heap.new.counter = 1) ∧
    (∀ (h : Heap) (cl dl r : Nat) (h' : Heap), h.counter < 2 ^ 64 →
      Heap.allocate h cl dl = .ok (r, h') →
      r = h.counter ∧ (0 < h.counter → r ≠ 0) ∧ h'.counter = h.counter + 1) ∧
    (∀ (h h' : Heap), Relation.ReflTransGen HeapStep h h' → h.counter < 2 ^ 64 →
      h.counter ≤ h'.counter ∧ h'.counter < 2 ^ 64) ∧
    (∀ (h : Heap) (cl dl r₁ : Nat) (h₁ h₂ : Heap) (cl' dl' r₂ : Nat) (h₃ : Heap),
      h.counter < 2 ^ 64 →
      Heap.allocate h cl dl = .ok (r₁, h₁) →
      Relation.ReflTransGen HeapStep h₁ h₂ →
      Heap.allocate h₂ cl' dl' = .ok (r₂, h₃) →
      r₁ < r₂) ∧
    (∀ (h : Heap) (cl dl : Nat), h.counter = 2 ^ 64 - 1 →
      Heap.allocate h cl dl = .error .Allocation) ∧
    (∀ (h h' : Heap) (cl dl : Nat), Relation.ReflTransGen HeapStep h h' →
      h.counter = 2 ^ 64 - 1 → Heap.allocate h' cl dl = .error .Allocation) := by
  have hnowrap : ∀ h : Heap, h.counter < 2 ^ 64 → (h.counter + 1) % 2 ^ 64 ≠ 0 →
      (h.counter + 1) % 2 ^ 64 = h.counter + 1 := by
    intro h hc hnz
    rcases Nat.lt_or_ge (h.counter + 1) (2 ^ 64) with hlt | hge
    · exact Nat.mod_eq_of_lt hlt
    · exfalso
      apply hnz
      have : h.counter + 1 = 2 ^ 64 := by omega
      rw [this]
      norm_num
  refine ⟨rfl, ?_, heapSteps_counter, ?_, allocate_error_at_max, ?_⟩
  · intro h cl dl r h' hc heq
    obtain ⟨hnz, hr, hcount⟩ := allocate_ok_inv h cl dl r h' heq
    rw [hnowrap h hc hnz] at hcount
    exact ⟨hr, fun hpos => by omega, hcount⟩
  · intro h cl dl r₁ h₁ h₂ cl' dl' r₂ h₃ hc heq₁ hsteps heq₂
    obtain ⟨hnz, hr₁, hcount₁⟩ := allocate_ok_inv h cl dl r₁ h₁ heq₁
    obtain ⟨_, hr₂, _⟩ := allocate_ok_inv h₂ cl' dl' r₂ h₃ heq₂
    rw [hnowrap h hc hnz] at hcount₁
    have hc₁ : h₁.counter < 2 ^ 64 := by
      rcases Nat.lt_or_ge (h.counter + 1) (2 ^ 64) with hlt | hge
      · omega
      · exfalso
        apply hnz
        have : h.counter + 1 = 2 ^ 64 := by omega
        rw [this]
        norm_num
    obtain ⟨hle, _⟩ := heapSteps_counter h₁ h₂ hsteps hc₁
    omega
  · intro h h' cl dl hsteps hmax
    have hstuck : h'.counter = 2 ^ 64 - 1 := by
      induction hsteps with
      | refl => exact hmax
      | tail _ hstep ih => exact heapStep_counter_max _ _ hstep ih
    exact allocate_error_at_max h' cl dl hstuck

theorem allocation_counter_properties_witness :
    (Heap.new.counter < 2 ^ 64 ∧
      Heap.allocate Heap.new 0 0 = .ok (1, { counter := 2, reference_map := [(1, Object.new 0 0)] }) ∧
      Heap.allocate { counter := 2, reference_map := [(1, Object.new 0 0)] } 0 0 = .ok (2, { counter := 3, reference_map := [(1, Object.new 0 0), (2, Object.new 0 0)] })) ∧
    (1 : Nat) < 2 :=
  ⟨⟨by decide, by decide, by decide⟩,
   allocation_counter_properties.2.2.2.1 Heap.new 0 0 1 { counter := 2, reference_map := [(1, Object.new 0 0)] } { counter := 2, reference_map := [(1, Object.new 0 0)] } 0 0 2 { counter := 3, reference_map := [(1, Object.new 0 0), (2, Object.new 0 0)] } (by decide) (by decide) Relation.ReflTransGen.refl (by decide)⟩

/-! ### C5 apparatus: the tracing collector -/

/-- A child edge both of whose endpoints avoid the still-marked set `F`:
paths of such edges survive the sweep verbatim. -/
def edgeOutside (m : List (Nat × Object)) (F : List Nat) (a b : Nat) : Prop :=
  childEdge m a b ∧ a ∉ F ∧ b ∉ F

theorem sift_garbage_zero (m : List (Nat × Object)) (marked : List Nat) (r : Nat) :
    sift_garbage m 0 marked r = marked := rfl

theorem sift_garbage_succ (m : List (Nat × Object)) (fuel : Nat) (marked : List Nat) (r : Nat) :
    sift_garbage m (fuel + 1) marked r =
      if r ∈ marked then (childRefs m r).foldl (sift_garbage m fuel) (marked.erase r)
      else marked := rfl

/-- Sifting only unmarks: the result is a sublist of the input marking. -/
theorem sift_garbage_sublist (m : List (Nat × Object)) (fuel : Nat) :
    ∀ (marked : List Nat) (r : Nat), (sift_garbage m fuel marked r).Sublist marked := by
  induction fuel with
  | zero => intro marked r; exact List.Sublist.refl _
  | succ fuel ih =>
    intro marked r
    rw [sift_garbage_succ]
    by_cases hr : r ∈ marked
    · rw [if_pos hr]
      have hfold : ∀ (cs M : List Nat), ((cs.foldl (sift_garbage m fuel) M)).Sublist M := by
        intro cs
        induction cs with
        | nil => intro M; exact List.Sublist.refl _
        | cons c cs ihc =>
          intro M
          simp only [List.foldl_cons]
          exact (ihc _).trans (ih M c)
      exact (hfold _ _).trans (List.erase_sublist r marked)
    · rw [if_neg hr]

theorem sift_garbage_fold_sublist (m : List (Nat × Object)) (fuel : Nat)
    (cs M : List Nat) : ((cs.foldl (sift_garbage m fuel) M)).Sublist M := by
  induction cs generalizing M with
  | nil => exact List.Sublist.refl _
  | cons c cs ihc =>
    simp only [List.foldl_cons]
    exact (ihc _).trans (sift_garbage_sublist m fuel M c)

/-- Soundness of the depth-first unmarking: a reference unmarked by
`sift_garbage` starting from `r` is reachable from `r`, along a path
every node of which avoids any set `F` of references that stay marked
through the end of the call (instantiated with the final marking). -/
theorem sift_garbage_unmark_reach (m : List (Nat × Object)) (fuel : Nat) :
    ∀ (marked : List Nat) (r x : Nat) (F : List Nat), marked.Nodup →
      (∀ y ∈ F, y ∈ sift_garbage m fuel marked r) →
      x ∈ marked → x ∉ sift_garbage m fuel marked r →
      r ∉ F ∧ Relation.ReflTransGen (edgeOutside m F) r x := by
  induction fuel with
  | zero =>
    intro marked r x F _ _ hx hnx
    exact absurd hx hnx
  | succ fuel ih =>
    intro marked r x F hnd hF hx hnx
    rw [sift_garbage_succ] at hF hnx
    by_cases hr : r ∈ marked
    · rw [if_pos hr] at hF hnx
      have hfold : ∀ (cs M : List Nat) (x : Nat), M.Nodup →
          (∀ y ∈ F, y ∈ cs.foldl (sift_garbage m fuel) M) →
          x ∈ M → x ∉ cs.foldl (sift_garbage m fuel) M →
          ∃ c ∈ cs, c ∉ F ∧ Relation.ReflTransGen (edgeOutside m F) c x := by
        intro cs
        induction cs with
        | nil =>
          intro M x _ _ hx hnx
          exact absurd hx hnx
        | cons c cs ihc =>
          intro M x hndM hFf hxM hnxf
          simp only [List.foldl_cons] at hFf hnxf
          by_cases hx1 : x ∈ sift_garbage m fuel M c
          · have hnd1 : (sift_garbage m fuel M c).Nodup :=
              (sift_garbage_sublist m fuel M c).nodup hndM
            obtain ⟨c', hc', hcF, hrr⟩ := ihc _ x hnd1 hFf hx1 hnxf
            exact ⟨c', List.mem_cons_of_mem c hc', hcF, hrr⟩
          · have hsub : ∀ y ∈ F, y ∈ sift_garbage m fuel M c := by
              intro y hy
              exact (sift_garbage_fold_sublist m fuel cs _).subset (hFf y hy)
            obtain ⟨hcF, hrr⟩ := ih M c x F hndM hsub hxM hx1
            exact ⟨c, List.mem_cons_self c cs, hcF, hrr⟩
      by_cases hxe : x ∈ marked.erase r
      · have hnde : (marked.erase r).Nodup := hnd.erase r
        obtain ⟨c, hc, hcF, hrr⟩ := hfold (childRefs m r) (marked.erase r) x hnde hF hxe hnx
        have hrne : r ∉ marked.erase r := by
          intro hmem
          exact absurd rfl ((hnd.mem_erase_iff.mp hmem).1)
        have hrS : r ∉ (childRefs m r).foldl (sift_garbage m fuel) (marked.erase r) :=
          fun hmem => hrne ((sift_garbage_fold_sublist m fuel _ _).subset hmem)
        have hrF : r ∉ F := fun hmem => hrS (hF r hmem)
        exact ⟨hrF, Relation.ReflTransGen.head ⟨hc, hrF, hcF⟩ hrr⟩
      · have hxr : x = r := by
          by_contra hne
          exact hxe ((List.mem_erase_of_ne hne).mpr hx)
        subst hxr
        have hxF : x ∉ F := fun hmem => hnx (hF x hmem)
        exact ⟨hxF, Relation.ReflTransGen.refl⟩
    · rw [if_neg hr] at hnx
      exact absurd hx hnx

/-- The fold of `sift_garbage` over a worklist (the collector's loop over
the root set): an unmarked reference is reachable from one of the
worklist entries, which itself ends unmarked. -/
theorem sift_garbage_fold_reach (m : List (Nat × Object)) (fuel : Nat) :
    ∀ (cs M : List Nat) (x : Nat) (F : List Nat), M.Nodup →
      (∀ y ∈ F, y ∈ cs.foldl (sift_garbage m fuel) M) →
      x ∈ M → x ∉ cs.foldl (sift_garbage m fuel) M →
      ∃ c ∈ cs, c ∉ F ∧ Relation.ReflTransGen (edgeOutside m F) c x := by
  intro cs
  induction cs with
  | nil =>
    intro M x F _ _ hx hnx
    exact absurd hx hnx
  | cons c cs ihc =>
    intro M x F hndM hFf hxM hnxf
    simp only [List.foldl_cons] at hFf hnxf
    by_cases hx1 : x ∈ sift_garbage m fuel M c
    · have hnd1 : (sift_garbage m fuel M c).Nodup :=
        (sift_garbage_sublist m fuel M c).nodup hndM
      obtain ⟨c', hc', hcF, hrr⟩ := ihc _ x F hnd1 hFf hx1 hnxf
      exact ⟨c', List.mem_cons_of_mem c hc', hcF, hrr⟩
    · have hsub : ∀ y ∈ F, y ∈ sift_garbage m fuel M c := by
        intro y hy
        exact (sift_garbage_fold_sublist m fuel cs _).subset (hFf y hy)
      obtain ⟨hcF, hrr⟩ :=
        sift_garbage_unmark_reach m fuel M c x F hndM hsub hxM hx1
      exact ⟨c, List.mem_cons_self c cs, hcF, hrr⟩

theorem mem_hfind (m : List (Nat × Object)) (hnd : (m.map Prod.fst).Nodup)
    (r : Nat) (o : Object) (hmem : (r, o) ∈ m) : hfind m r = some o := by
  induction m with
  | nil => cases hmem
  | cons p m ih =>
    rcases List.mem_cons.mp hmem with heq | htail
    · subst heq
      simp [hfind]
    · have hr : p.1 ≠ r := by
        intro hpr
        have : r ∈ m.map Prod.fst := List.mem_map.mpr ⟨(r, o), htail, rfl⟩
        rw [List.map_cons, List.nodup_cons, hpr] at hnd
        exact hnd.1 this
      simp only [hfind, List.find?]
      rw [show (decide (p.1 = r)) = false from decide_eq_false hr]
      exact ih (by rw [List.map_cons, List.nodup_cons] at hnd; exact hnd.2) htail

theorem hfind_filter_notin (m : List (Nat × Object)) (F : List Nat) (a : Nat) (ha : a ∉ F) :
    hfind (m.filter (fun p => decide (p.1 ∉ F))) a = hfind m a := by
  induction m with
  | nil => rfl
  | cons p m ih =>
    by_cases hp : p.1 ∉ F
    · rw [List.filter_cons_of_pos (by simpa using hp)]
      by_cases hpa : p.1 = a
      · simp [hfind, List.find?, hpa]
      · simp only [hfind, List.find?]
        rw [show (decide (p.1 = a)) = false from decide_eq_false hpa]
        exact ih
    · rw [List.filter_cons_of_neg (by simpa using hp)]
      have hpa : p.1 ≠ a := by
        intro hpa
        rw [hpa] at hp
        exact hp ha
      rw [show hfind (p :: m) a = hfind m a from ?_]
      · exact ih
      · simp only [hfind, List.find?]
        rw [show (decide (p.1 = a)) = false from decide_eq_false hpa]

theorem childRefs_inv (m : List (Nat × Object)) (a b : Nat) (hb : b ∈ childRefs m a) :
    ∃ o, hfind m a = some o ∧ b ∈ o.children.filterMap id := by
  unfold childRefs at hb
  rcases hf : hfind m a with _ | o <;> rw [hf] at hb
  · cases hb
  · exact ⟨o, rfl, hb⟩

theorem rootRefs_isRoot (m : List (Nat × Object)) (hnd : (m.map Prod.fst).Nodup)
    (r : Nat) (hr : r ∈ rootRefs m) : isRoot m r := by
  unfold rootRefs at hr
  obtain ⟨p, hpmem, hpr⟩ := List.mem_map.mp hr
  obtain ⟨hpm, hppos⟩ := List.mem_filter.mp hpmem
  refine ⟨p.2, ?_, by simpa using hppos⟩
  rw [← hpr]
  exact mem_hfind m hnd p.1 p.2 hpm

theorem collect_garbage_keys (h : Heap) (x : Nat) :
    x ∈ h.collect_garbage.reference_map.map Prod.fst ↔
      x ∈ h.reference_map.map Prod.fst ∧
        x ∉ (rootRefs h.reference_map).foldl
          (sift_garbage h.reference_map (h.reference_map.length + 1))
          (h.reference_map.map Prod.fst) := by
  show x ∈ (h.reference_map.filter _).map Prod.fst ↔ _
  constructor
  · intro hx
    obtain ⟨p, hpmem, hpx⟩ := List.mem_map.mp hx
    obtain ⟨hpm, hpkeep⟩ := List.mem_filter.mp hpmem
    subst hpx
    exact ⟨List.mem_map.mpr ⟨p, hpm, rfl⟩, by simpa using hpkeep⟩
  · rintro ⟨hx, hnf⟩
    obtain ⟨p, hpm, hpx⟩ := List.mem_map.mp hx
    subst hpx
    exact List.mem_map.mpr ⟨p, List.mem_filter.mpr ⟨hpm, by simpa using hnf⟩, rfl⟩

/-- C5: after `collect_garbage` returns on a well-formed heap (distinct
keys; every stored child reference resolves, which is what keeps the
source's unwrapped status lookups from panicking — the fuelled model of
the recursion agrees with the source on such heaps and its fuel bound
makes the depth-first traversal terminate on arbitrary cyclic graphs):
(1) every entry remaining in the reference map is reachable, inside the
collected map, from a root of the collected map (an entry with
`stack_refs > 0`) by following non-null child references; and (2) every
entry that was unreachable from every root before the call — unreachable
cycles included — is absent from the map afterwards. -/
theorem collect_garbage_correct (h : Heap)
    (hnd : (h.reference_map.map Prod.fst).Nodup)
    (hclosed : ClosedHeap h.reference_map) :
    (∀ x ∈ h.collect_garbage.reference_map.map Prod.fst,
        reachableFromRoot h.collect_garbage.reference_map x) ∧
    (∀ x ∈ h.reference_map.map Prod.fst,
        ¬ reachableFromRoot h.reference_map x →
        x ∉ h.collect_garbage.reference_map.map Prod.fst) := by
  have hmain : ∀ x ∈ h.reference_map.map Prod.fst,
      x ∉ (rootRefs h.reference_map).foldl
        (sift_garbage h.reference_map (h.reference_map.length + 1))
        (h.reference_map.map Prod.fst) →
      ∃ ρ ∈ rootRefs h.reference_map,
        ρ ∉ (rootRefs h.reference_map).foldl
          (sift_garbage h.reference_map (h.reference_map.length + 1))
          (h.reference_map.map Prod.fst) ∧
        Relation.ReflTransGen
          (edgeOutside h.reference_map
            ((rootRefs h.reference_map).foldl
              (sift_garbage h.reference_map (h.reference_map.length + 1))
              (h.reference_map.map Prod.fst))) ρ x := by
    intro x hx hnx
    exact sift_garbage_fold_reach h.reference_map (h.reference_map.length + 1)
      (rootRefs h.reference_map) (h.reference_map.map Prod.fst) x _ hnd
      (fun y hy => hy) hx hnx
  constructor
  · intro x hx
    obtain ⟨hxk, hnf⟩ := (collect_garbage_keys h x).mp hx
    obtain ⟨ρ, hρmem, hρF, hpath⟩ := hmain x hxk hnf
    obtain ⟨o, hfo, hopos⟩ := rootRefs_isRoot h.reference_map hnd ρ hρmem
    refine ⟨ρ, ⟨o, ?_, hopos⟩, ?_⟩
    · show hfind (h.reference_map.filter _) ρ = some o
      rw [hfind_filter_notin h.reference_map _ ρ hρF]
      exact hfo
    · refine hpath.mono ?_
      rintro a b ⟨hedge, haF, hbF⟩
      obtain ⟨oa, hfa, hba⟩ := childRefs_inv h.reference_map a b hedge
      show b ∈ childRefs h.collect_garbage.reference_map a
      have : hfind h.collect_garbage.reference_map a = some oa := by
        show hfind (h.reference_map.filter _) a = some oa
        rw [hfind_filter_notin h.reference_map _ a haF]
        exact hfa
      unfold childRefs
      rw [this]
      exact hba
  · intro x hxk hunreach hx
    obtain ⟨_, hnf⟩ := (collect_garbage_keys h x).mp hx
    obtain ⟨ρ, hρmem, _, hpath⟩ := hmain x hxk hnf
    exact hunreach ⟨ρ, rootRefs_isRoot h.reference_map hnd ρ hρmem,
      hpath.mono (fun a b hab => hab.1)⟩

/-- Concrete heap for the witness: object 1 is a root holding child 2;
objects 3 and 4 form an unreachable cycle. -/
def gcWitnessHeap : Heap :=
  { counter := 5
    reference_map :=
      [(1, { stack_references := 1, children := [some 2], data := [] }),
       (2, { stack_references := 0, children := [], data := [] }),
       (3, { stack_references := 0, children := [some 4], data := [] }),
       (4, { stack_references := 0, children := [some 3], data := [] })] }

theorem collect_garbage_correct_witness :
    ((gcWitnessHeap.reference_map.map Prod.fst).Nodup ∧
      ClosedHeap gcWitnessHeap.reference_map) ∧
    ((∀ x ∈ gcWitnessHeap.collect_garbage.reference_map.map Prod.fst,
        reachableFromRoot gcWitnessHeap.collect_garbage.reference_map x) ∧
      (∀ x ∈ gcWitnessHeap.reference_map.map Prod.fst,
        ¬ reachableFromRoot gcWitnessHeap.reference_map x →
        x ∉ gcWitnessHeap.collect_garbage.reference_map.map Prod.fst)) :=
  ⟨⟨by decide, by decide⟩, collect_garbage_correct gcWitnessHeap (by decide) (by decide)⟩

end BytecodeVM
